import Mathlib

/-!
Verification of the watched-interval tracking core of the video progress
tracking system.

The embedding below translates, function by function, the JavaScript source:

* `mergeIntervals`, `calculateUniqueWatchedTime`, `calculateProgressPercentage`
  (the interval-merging and progress-calculation algorithms);
* the `getVideoProgress` / `updateProgress` / `resetProgress` operations of the
  client `VideoContext` provider;
* the resume-seek effect of the client video player component.

Seconds are modelled as integers (`Int`) for interval bounds — the algorithms
only add, subtract, compare and take `max`, all exact on JS numbers — and as
rationals (`ℚ`) where JS performs division.  JS `Array.prototype.sort` with the
comparator `(a, b) => a.start - b.start` is a stable sort by `start`, modelled
by Mathlib's stable `List.insertionSort` under the relation `startLE`.
-/

namespace VideoProgress

/-- A watched interval `{start, end}` of integer seconds, inclusive on both
ends.  The JS object field `end` is a Lean keyword, so it is rendered `stop`. -/
structure Interval where
  start : Int
  stop : Int
deriving DecidableEq

/-- Comparison used by the implementation's sort: order by `start` only
(the JS comparator `(a, b) => a.start - b.start`). -/
def startLE (a b : Interval) : Prop := a.start ≤ b.start

instance : DecidableRel startLE := fun a b => inferInstanceAs (Decidable (a.start ≤ b.start))

instance : IsTotal Interval startLE := ⟨fun a b => Int.le_total a.start b.start⟩

instance : IsTrans Interval startLE := ⟨fun _ _ _ h1 h2 => le_trans h1 h2⟩

/-- The stable sort by `start` performed by `[...intervals].sort((a, b) => a.start - b.start)`. -/
def sortByStart (l : List Interval) : List Interval := l.insertionSort startLE

/-- The in-place update `lastMerged.end = Math.max(lastMerged.end, current.end)`. -/
def mrg (lastMerged current : Interval) : Interval :=
  { lastMerged with stop := max lastMerged.stop current.stop }

/-- The loop of `mergeIntervals`: the result list is represented by the
interval currently at its tail (`lastMerged`, the only entry the loop ever
mutates) followed by the remaining input.  `if (current.start <= lastMerged.end
+ 1)` merges, otherwise `result.push(current)`. -/
def mergeFold (lastMerged : Interval) : List Interval → List Interval
  | [] => [lastMerged]
  | current :: rest =>
    if current.start ≤ lastMerged.stop + 1 then mergeFold (mrg lastMerged current) rest
    else lastMerged :: mergeFold current rest

/-- `const result = [sortedIntervals[0]]` followed by the loop, on an already
sorted list. -/
def mergeRun : List Interval → List Interval
  | [] => []
  | h :: t => mergeFold h t

/-- `function mergeIntervals(intervals)` from the repository README:
return inputs of length ≤ 1 unchanged, otherwise sort by `start` and fold. -/
def mergeIntervals (intervals : List Interval) : List Interval :=
  if intervals.length ≤ 1 then intervals
  else mergeRun (sortByStart intervals)

/-- `function calculateUniqueWatchedTime(intervals)`: the `reduce` summing
`interval.end - interval.start + 1` from the initial accumulator `0`. -/
def calculateUniqueWatchedTime (intervals : List Interval) : Int :=
  intervals.foldl (fun total interval => total + (interval.stop - interval.start + 1)) 0

/-- `function calculateProgressPercentage(intervals, duration)`:
`(totalWatchedSeconds / duration) * 100`, with no clamping and no guard on
`duration`.  Division is JS floating-point division, modelled on `ℚ`; theorems
below keep `duration` positive, since `ℚ` division by zero (which yields `0`)
does not model the JS behaviour (`Infinity`/`NaN`). -/
def calculateProgressPercentage (intervals : List Interval) (duration : ℚ) : ℚ :=
  ((calculateUniqueWatchedTime intervals : Int) : ℚ) / duration * 100

/-- The interval-merging algorithm exactly as the specification words it:
"sort input by `start` ascending ... Initialize result with the first interval.
For each subsequent interval `cur`: if `cur.start ≤ last.end + 1` ... replace
`last.end` with `max(last.end, cur.end)`; otherwise append `cur`" — with no
special case for short inputs. -/
def specMergeAlgorithm (intervals : List Interval) : List Interval :=
  mergeRun (sortByStart intervals)

/-- The spec's `uniqueSeconds(intervals) = Σ (end−start+1)`, written as a plain
sum for comparison with the implementation's `reduce`. -/
def specUniqueSeconds (intervals : List Interval) : Int :=
  (intervals.map (fun i => i.stop - i.start + 1)).sum

/-- Modelled from the spec: the server-side validation of an incoming interval
batch (`ProgressStore`, error taxonomy entry `InvalidInterval`) is not among
the provided sources.  Per the spec, an interval with `start > end` is rejected
(the single offending interval, with an error) and the remainder of the batch
is still processed.  Returns `(accepted, rejected)`. -/
def validateBatch (batch : List Interval) : List Interval × List Interval :=
  batch.partition (fun i => i.start ≤ i.stop)

/-- The per-user-and-video progress record held by the server (`WatchedState`
in the spec), as consumed by the client from `res.data.data`. -/
structure WatchedState where
  intervals : List Interval
  lastPosition : ℚ
  progressPercentage : ℚ
deriving DecidableEq

/-- The local state of the client `VideoProvider` touched by the progress
operations: the `progress` and `error` React states. -/
structure VideoCtxState where
  progress : Option WatchedState
  error : Option String
deriving DecidableEq

/-- Outcome of one `axios` progress request: the promise rejects (`failure`,
caught by the `catch` block), or resolves with a body whose `success` flag and
optional `data` payload the code inspects. -/
inductive ApiResponse where
  | failure : ApiResponse
  | reply (success : Bool) (data : Option WatchedState) : ApiResponse
deriving DecidableEq

/-- Observable outcome of one progress operation: the value returned to the
caller (`none` models JS `null`; the functions catch all transport errors, so
they never throw and a plain return type is faithful), the provider state after
the call, and how many HTTP requests were issued. -/
structure OpOutcome where
  ret : Option WatchedState
  state : VideoCtxState
  requests : Nat
deriving DecidableEq

/-- `getVideoProgress` from the client `VideoContext` provider: bail out with
`null` when unauthenticated (no request, no state change); otherwise issue one
GET; on a response with `success` and `data`, `setProgress(data)` and
`setError(null)` and return the data; on any other response or a caught error,
return `null` leaving the state alone. -/
def getVideoProgress (isAuthenticated : Bool) (resp : ApiResponse) (s : VideoCtxState) :
    OpOutcome :=
  if isAuthenticated = false then ⟨none, s, 0⟩
  else
    match resp with
    | ApiResponse.failure => ⟨none, s, 1⟩
    | ApiResponse.reply success data =>
      match success, data with
      | true, some d => ⟨some d, ⟨some d, none⟩, 1⟩
      | _, _ => ⟨none, s, 1⟩

/-- `updateProgress` from the client `VideoContext` provider; identical logic
to `getVideoProgress` around a POST carrying `data` (the intervals and last
position being reported, which does not influence the client-side outcome). -/
def updateProgress (isAuthenticated : Bool) (data : List Interval × ℚ) (resp : ApiResponse)
    (s : VideoCtxState) : OpOutcome :=
  if isAuthenticated = false then ⟨none, s, 0⟩
  else
    match data, resp with
    | _, ApiResponse.failure => ⟨none, s, 1⟩
    | _, ApiResponse.reply success respData =>
      match success, respData with
      | true, some d => ⟨some d, ⟨some d, none⟩, 1⟩
      | _, _ => ⟨none, s, 1⟩

/-- `resetProgress` from the client `VideoContext` provider; identical logic
to `getVideoProgress` around a DELETE. -/
def resetProgress (isAuthenticated : Bool) (resp : ApiResponse) (s : VideoCtxState) :
    OpOutcome :=
  if isAuthenticated = false then ⟨none, s, 0⟩
  else
    match resp with
    | ApiResponse.failure => ⟨none, s, 1⟩
    | ApiResponse.reply success data =>
      match success, data with
      | true, some d => ⟨some d, ⟨some d, none⟩, 1⟩
      | _, _ => ⟨none, s, 1⟩

/-- The resume-seek effect of the client video player component: when the
player reference is set, the player is ready and `lastPosition > 0`, it calls
`player.seekTo(lastPosition)`; otherwise no seek is issued.  Returns the seek
target, if any. -/
def resumeSeekTarget (hasPlayer isReady : Bool) (lastPosition : ℚ) : Option ℚ :=
  if hasPlayer = true ∧ isReady = true ∧ 0 < lastPosition then some lastPosition else none

/-- Modelled from the spec: the `ResumeResolver` of §4.6 (not itself a source
file) — "if `lastPosition` is within `[0, duration)`, instruct the player to
seek there ...; otherwise resume from `0`".  Used to compare the code's
resume-seek effect against the claimed behaviour. -/
def specResumeTarget (lastPosition duration : ℚ) : ℚ :=
  if 0 ≤ lastPosition ∧ lastPosition < duration then lastPosition else 0

/-- An interval is valid when its start does not exceed its end. -/
def Valid (i : Interval) : Prop := i.start ≤ i.stop

instance : DecidablePred Valid := fun i => inferInstanceAs (Decidable (i.start ≤ i.stop))

/-- The gap relation of the canonical form: the next interval starts strictly
beyond one second after the current one ends. -/
def gapR (a b : Interval) : Prop := a.stop + 1 < b.start

instance : DecidableRel gapR := fun a b => inferInstanceAs (Decidable (a.stop + 1 < b.start))

/-- A second `t` is covered by an interval list when some member contains it. -/
def covers (l : List Interval) (t : Int) : Prop := ∃ i ∈ l, i.start ≤ t ∧ t ≤ i.stop

/-! ### Structural lemmas about the merge loop -/

/-- The length guard of `mergeIntervals` is redundant: on inputs of length ≤ 1
sorting and folding return the input unchanged, so the function always agrees
with sort-then-fold. -/
theorem mergeIntervals_eq_run : ∀ l : List Interval, mergeIntervals l = mergeRun (sortByStart l)
  | [] => rfl
  | [_] => rfl
  | x :: y :: t => by
    have h : ¬(x :: y :: t).length ≤ 1 := by simp
    rw [mergeIntervals, if_neg h]

theorem sortByStart_sorted (l : List Interval) : List.Sorted startLE (sortByStart l) :=
  List.sorted_insertionSort startLE l

theorem sortByStart_perm (l : List Interval) : (sortByStart l).Perm l :=
  List.perm_insertionSort startLE l

theorem sortByStart_eq_of_sorted {l : List Interval} (h : List.Sorted startLE l) :
    sortByStart l = l :=
  h.insertionSort_eq

/-- The fold yields a nonempty list whose head starts where `lastMerged`
starts and ends no earlier than `lastMerged` ends. -/
theorem mergeFold_exists_cons (rest : List Interval) :
    ∀ last : Interval, ∃ e tl, mergeFold last rest = ⟨last.start, e⟩ :: tl ∧ last.stop ≤ e := by
  induction rest with
  | nil => exact fun last => ⟨last.stop, [], rfl, le_refl _⟩
  | cons cur rest ih =>
    intro last
    rw [mergeFold]
    by_cases h : cur.start ≤ last.stop + 1
    · rw [if_pos h]
      obtain ⟨e, tl, heq, hle⟩ := ih (mrg last cur)
      exact ⟨e, tl, heq, le_trans (le_max_left _ _) hle⟩
    · rw [if_neg h]
      exact ⟨last.stop, mergeFold cur rest, rfl, le_refl _⟩

/-- Canonical-form invariant of the fold on sorted input: the result satisfies
the gap condition between consecutive entries, is sorted by start, and all its
entries start no earlier than `lastMerged`. -/
theorem mergeFold_canonical (rest : List Interval) :
    ∀ last : Interval, List.Sorted startLE rest → (∀ x ∈ rest, last.start ≤ x.start) →
      List.Chain' gapR (mergeFold last rest) ∧ List.Sorted startLE (mergeFold last rest) ∧
        ∀ x ∈ mergeFold last rest, last.start ≤ x.start := by
  induction rest with
  | nil =>
    intro last _ _
    refine ⟨List.chain'_singleton _, List.sorted_singleton _, ?_⟩
    intro x hx
    rw [List.mem_singleton.mp hx]
  | cons cur rest ih =>
    intro last hsort hge
    have hsort' : List.Sorted startLE rest := hsort.of_cons
    have hcur_rest : ∀ x ∈ rest, cur.start ≤ x.start :=
      fun x hx => (List.sorted_cons.mp hsort).1 x hx
    have hlast_cur : last.start ≤ cur.start := hge cur (List.mem_cons_self _ _)
    rw [mergeFold]
    by_cases h : cur.start ≤ last.stop + 1
    · rw [if_pos h]
      exact ih (mrg last cur) hsort' (fun x hx => le_trans hlast_cur (hcur_rest x hx))
    · rw [if_neg h]
      obtain ⟨hchain, hsorted, hmem⟩ := ih cur hsort' hcur_rest
      obtain ⟨e, tl, heq, _⟩ := mergeFold_exists_cons rest cur
      refine ⟨?_, ?_, ?_⟩
      · rw [heq] at hchain ⊢
        exact List.Chain'.cons (not_le.mp h) hchain
      · refine List.sorted_cons.mpr ⟨?_, hsorted⟩
        exact fun b hb => le_trans hlast_cur (hmem b hb)
      · intro x hx
        rcases List.mem_cons.mp hx with hx | hx
        · rw [hx]
        · exact le_trans hlast_cur (hmem x hx)

/-- Folding a list already in canonical form changes nothing. -/
theorem mergeFold_of_chain : ∀ (rest : List Interval) (last : Interval),
    List.Chain' gapR (last :: rest) → mergeFold last rest = last :: rest
  | [], _, _ => rfl
  | cur :: rest, last, h => by
    have h1 : gapR last cur := (List.chain'_cons.mp h).1
    have h2 : List.Chain' gapR (cur :: rest) := (List.chain'_cons.mp h).2
    rw [mergeFold, if_neg (not_le.mpr h1), mergeFold_of_chain rest cur h2]

theorem mergeRun_canonical {l : List Interval} (h : List.Sorted startLE l) :
    List.Chain' gapR (mergeRun l) ∧ List.Sorted startLE (mergeRun l) := by
  match l with
  | [] => exact ⟨List.chain'_nil, List.sorted_nil⟩
  | h0 :: t =>
    have hc := mergeFold_canonical t h0 h.of_cons (fun x hx => (List.sorted_cons.mp h).1 x hx)
    exact ⟨hc.1, hc.2.1⟩

theorem mergeRun_of_chain {l : List Interval} (h : List.Chain' gapR l) : mergeRun l = l := by
  match l with
  | [] => rfl
  | h0 :: t => exact mergeFold_of_chain t h0 h

/-- The output of `mergeIntervals` always satisfies the gap condition between
consecutive entries (no overlapping and no 1-second-adjacent neighbours). -/
theorem mergeIntervals_chain (l : List Interval) : List.Chain' gapR (mergeIntervals l) := by
  rw [mergeIntervals_eq_run]
  exact (mergeRun_canonical (sortByStart_sorted l)).1

/-- The output of `mergeIntervals` is always sorted by start. -/
theorem mergeIntervals_sorted (l : List Interval) : List.Sorted startLE (mergeIntervals l) := by
  rw [mergeIntervals_eq_run]
  exact (mergeRun_canonical (sortByStart_sorted l)).2

theorem mergeIntervals_idem_aux (l : List Interval) :
    mergeIntervals (mergeIntervals l) = mergeIntervals l := by
  rw [mergeIntervals_eq_run (mergeIntervals l),
    sortByStart_eq_of_sorted (mergeIntervals_sorted l),
    mergeRun_of_chain (mergeIntervals_chain l)]

theorem gapR_def {a b : Interval} : gapR a b ↔ a.stop + 1 < b.start := Iff.rfl

theorem Valid_def {i : Interval} : Valid i ↔ i.start ≤ i.stop := Iff.rfl

theorem mrg_start {a b : Interval} : (mrg a b).start = a.start := rfl

theorem mrg_stop {a b : Interval} : (mrg a b).stop = max a.stop b.stop := rfl

/-! ### Validity preservation -/

/-- The fold never manufactures an interval with `start > end` from valid ones:
merging only raises the `end` of an already valid entry. -/
theorem mergeFold_valid (rest : List Interval) :
    ∀ last : Interval, Valid last → (∀ x ∈ rest, Valid x) →
      ∀ y ∈ mergeFold last rest, Valid y := by
  induction rest with
  | nil =>
    intro last hl _ y hy
    rw [List.mem_singleton.mp hy]
    exact hl
  | cons cur rest ih =>
    intro last hl hrest
    rw [mergeFold]
    by_cases h : cur.start ≤ last.stop + 1
    · rw [if_pos h]
      refine ih (mrg last cur) ?_ (fun x hx => hrest x (List.mem_cons_of_mem _ hx))
      exact le_trans hl (le_max_left _ _)
    · rw [if_neg h]
      intro y hy
      rcases List.mem_cons.mp hy with hy | hy
      · rw [hy]; exact hl
      · exact ih cur (hrest cur (List.mem_cons_self _ _))
          (fun x hx => hrest x (List.mem_cons_of_mem _ hx)) y hy

theorem mergeRun_valid : ∀ {l : List Interval}, (∀ i ∈ l, Valid i) →
    ∀ j ∈ mergeRun l, Valid j
  | [], _, j, hj => absurd hj (List.not_mem_nil j)
  | h0 :: t, h, j, hj =>
    mergeFold_valid t h0 (h h0 (List.mem_cons_self _ _))
      (fun x hx => h x (List.mem_cons_of_mem _ hx)) j hj

/-- Every interval in the output of `mergeIntervals` on a valid input is valid. -/
theorem mergeIntervals_valid {l : List Interval} (h : ∀ i ∈ l, Valid i) :
    ∀ j ∈ mergeIntervals l, Valid j := by
  rw [mergeIntervals_eq_run]
  exact mergeRun_valid (fun i hi => h i ((sortByStart_perm l).mem_iff.mp hi))

/-! ### Coverage semantics -/

theorem covers_perm {l l' : List Interval} (h : l.Perm l') (t : Int) :
    covers l t ↔ covers l' t := by
  constructor
  · rintro ⟨i, hi, h1, h2⟩
    exact ⟨i, h.mem_iff.mp hi, h1, h2⟩
  · rintro ⟨i, hi, h1, h2⟩
    exact ⟨i, h.mem_iff.mpr hi, h1, h2⟩

theorem covers_cons {a : Interval} {l : List Interval} {t : Int} :
    covers (a :: l) t ↔ (a.start ≤ t ∧ t ≤ a.stop) ∨ covers l t := by
  constructor
  · rintro ⟨i, hi, h1, h2⟩
    rcases List.mem_cons.mp hi with rfl | hi
    · exact Or.inl ⟨h1, h2⟩
    · exact Or.inr ⟨i, hi, h1, h2⟩
  · rintro (⟨h1, h2⟩ | ⟨i, hi, h1, h2⟩)
    · exact ⟨a, List.mem_cons_self _ _, h1, h2⟩
    · exact ⟨i, List.mem_cons_of_mem _ hi, h1, h2⟩

/-- The fold preserves the set of covered seconds on sorted input: an absorbed
interval's seconds were already reachable through the extended entry. -/
theorem mergeFold_covers (rest : List Interval) :
    ∀ last : Interval, List.Sorted startLE rest → (∀ x ∈ rest, last.start ≤ x.start) →
      ∀ t : Int, covers (mergeFold last rest) t ↔ covers (last :: rest) t := by
  induction rest with
  | nil => exact fun last _ _ t => Iff.rfl
  | cons cur rest ih =>
    intro last hsort hge t
    have hsort' := hsort.of_cons
    have hcur_rest : ∀ x ∈ rest, cur.start ≤ x.start :=
      fun x hx => (List.sorted_cons.mp hsort).1 x hx
    have hlast_cur : last.start ≤ cur.start := hge cur (List.mem_cons_self _ _)
    rw [mergeFold]
    by_cases h : cur.start ≤ last.stop + 1
    · rw [if_pos h,
        ih (mrg last cur) hsort' (fun x hx => le_trans hlast_cur (hcur_rest x hx)) t]
      rw [covers_cons, covers_cons, covers_cons, mrg_start, mrg_stop]
      constructor
      · rintro (⟨h1, h2⟩ | hr)
        · by_cases ht : t ≤ last.stop
          · exact Or.inl ⟨h1, ht⟩
          · refine Or.inr (Or.inl ⟨?_, ?_⟩)
            · exact le_trans h (Int.add_one_le_iff.mpr (not_le.mp ht))
            · exact (le_max_iff.mp h2).resolve_left ht
        · exact Or.inr (Or.inr hr)
      · rintro (⟨h1, h2⟩ | ⟨h1, h2⟩ | hr)
        · exact Or.inl ⟨h1, le_trans h2 (le_max_left _ _)⟩
        · exact Or.inl ⟨le_trans hlast_cur h1, le_trans h2 (le_max_right _ _)⟩
        · exact Or.inr hr
    · rw [if_neg h, covers_cons, ih cur hsort' hcur_rest t, ← covers_cons]

theorem mergeRun_covers : ∀ {l : List Interval}, List.Sorted startLE l →
    ∀ t : Int, covers (mergeRun l) t ↔ covers l t
  | [], _, _ => Iff.rfl
  | h0 :: t, h, s =>
    mergeFold_covers t h0 h.of_cons (fun x hx => (List.sorted_cons.mp h).1 x hx) s

/-- `mergeIntervals` covers exactly the seconds its input covers. -/
theorem mergeIntervals_covers (l : List Interval) (t : Int) :
    covers (mergeIntervals l) t ↔ covers l t := by
  rw [mergeIntervals_eq_run, mergeRun_covers (sortByStart_sorted l) t]
  exact covers_perm (sortByStart_perm l) t

/-! ### Uniqueness of the canonical form -/

theorem chain_valid_head : ∀ {a : Interval} {l : List Interval}, List.Chain' gapR (a :: l) →
    (∀ i ∈ l, Valid i) → ∀ x ∈ l, gapR a x := by
  intro a l
  induction l generalizing a with
  | nil => exact fun _ _ x hx => absurd hx (List.not_mem_nil x)
  | cons b t ih =>
    intro hch hv x hx
    have h1 : gapR a b := (List.chain'_cons.mp hch).1
    rcases List.mem_cons.mp hx with rfl | hx
    · exact h1
    · have h2 : gapR b x :=
        ih (List.chain'_cons.mp hch).2 (fun i hi => hv i (List.mem_cons_of_mem _ hi)) x hx
      have hvb : Valid b := hv b (List.mem_cons_self _ _)
      rw [gapR_def] at h1 h2 ⊢
      rw [Valid_def] at hvb
      omega

/-- Two lists in canonical form consisting of valid intervals and covering the
same seconds are equal. -/
theorem canonical_covers_unique : ∀ (l1 l2 : List Interval),
    List.Chain' gapR l1 → List.Chain' gapR l2 →
    (∀ i ∈ l1, Valid i) → (∀ i ∈ l2, Valid i) →
    (∀ t, covers l1 t ↔ covers l2 t) → l1 = l2 := by
  intro l1
  induction l1 with
  | nil =>
    intro l2 _ _ _ hv2 hcov
    cases l2 with
    | nil => rfl
    | cons b t2 =>
      exfalso
      have hb : covers (b :: t2) b.start :=
        ⟨b, List.mem_cons_self _ _, le_refl _, hv2 b (List.mem_cons_self _ _)⟩
      obtain ⟨i, hi, -, -⟩ := (hcov b.start).mpr hb
      exact absurd hi (List.not_mem_nil i)
  | cons a t1 ih =>
    intro l2 hch1 hch2 hv1 hv2 hcov
    cases l2 with
    | nil =>
      exfalso
      have ha : covers (a :: t1) a.start :=
        ⟨a, List.mem_cons_self _ _, le_refl _, hv1 a (List.mem_cons_self _ _)⟩
      obtain ⟨i, hi, -, -⟩ := (hcov a.start).mp ha
      exact absurd hi (List.not_mem_nil i)
    | cons b t2 =>
      have hva : Valid a := hv1 a (List.mem_cons_self _ _)
      have hvb : Valid b := hv2 b (List.mem_cons_self _ _)
      have hv1t : ∀ i ∈ t1, Valid i := fun i hi => hv1 i (List.mem_cons_of_mem _ hi)
      have hv2t : ∀ i ∈ t2, Valid i := fun i hi => hv2 i (List.mem_cons_of_mem _ hi)
      have hha : ∀ x ∈ t1, gapR a x := chain_valid_head hch1 hv1t
      have hhb : ∀ x ∈ t2, gapR b x := chain_valid_head hch2 hv2t
      have hsab : b.start ≤ a.start := by
        obtain ⟨i, hi, h1, h2⟩ := (hcov a.start).mp
          ⟨a, List.mem_cons_self _ _, le_refl _, hva⟩
        rcases List.mem_cons.mp hi with rfl | hi
        · exact h1
        · have hg := hhb i hi
          rw [gapR_def] at hg
          rw [Valid_def] at hvb
          omega
      have hsba : a.start ≤ b.start := by
        obtain ⟨i, hi, h1, h2⟩ := (hcov b.start).mpr
          ⟨b, List.mem_cons_self _ _, le_refl _, hvb⟩
        rcases List.mem_cons.mp hi with rfl | hi
        · exact h1
        · have hg := hha i hi
          rw [gapR_def] at hg
          rw [Valid_def] at hva
          omega
      have hstart : a.start = b.start := le_antisymm hsba hsab
      have hstop_le : a.stop ≤ b.stop := by
        by_contra hcon
        push_neg at hcon
        have hcv : covers (a :: t1) (b.stop + 1) := by
          refine ⟨a, List.mem_cons_self _ _, ?_, ?_⟩
          · rw [Valid_def] at hvb; omega
          · omega
        obtain ⟨i, hi, h1, h2⟩ := (hcov (b.stop + 1)).mp hcv
        rcases List.mem_cons.mp hi with rfl | hi
        · omega
        · have hg := hhb i hi
          rw [gapR_def] at hg
          omega
      have hstop_ge : b.stop ≤ a.stop := by
        by_contra hcon
        push_neg at hcon
        have hcv : covers (b :: t2) (a.stop + 1) := by
          refine ⟨b, List.mem_cons_self _ _, ?_, ?_⟩
          · rw [Valid_def] at hva; omega
          · omega
        obtain ⟨i, hi, h1, h2⟩ := (hcov (a.stop + 1)).mpr hcv
        rcases List.mem_cons.mp hi with rfl | hi
        · omega
        · have hg := hha i hi
          rw [gapR_def] at hg
          omega
      have hstop : a.stop = b.stop := le_antisymm hstop_le hstop_ge
      have hab : a = b := by
        cases a; cases b
        simp only [Interval.mk.injEq]
        exact ⟨hstart, hstop⟩
      have htail : ∀ t, covers t1 t ↔ covers t2 t := by
        intro t
        by_cases ht : t ≤ a.stop
        · constructor
          · rintro ⟨i, hi, h1, h2⟩
            have hg := hha i hi
            rw [gapR_def] at hg
            omega
          · rintro ⟨i, hi, h1, h2⟩
            have hg := hhb i hi
            rw [gapR_def] at hg
            omega
        · have h1 : covers t1 t ↔ covers (a :: t1) t := by
            rw [covers_cons]
            constructor
            · exact Or.inr
            · rintro (⟨-, h2⟩ | hr)
              · exact absurd h2 ht
              · exact hr
          have h2 : covers t2 t ↔ covers (b :: t2) t := by
            rw [covers_cons]
            constructor
            · exact Or.inr
            · rintro (⟨-, h2⟩ | hr)
              · rw [← hstop] at h2
                exact absurd h2 ht
              · exact hr
          rw [h1, h2, hcov t]
      rw [hab, ih t2 (List.Chain'.tail hch1) (List.Chain'.tail hch2) hv1t hv2t htail]

/-! ### Insertion lemmas: prepending one interval to the input -/

theorem mergeFold_cons_pos {last cur : Interval} {rest : List Interval}
    (h : cur.start ≤ last.stop + 1) :
    mergeFold last (cur :: rest) = mergeFold (mrg last cur) rest := by
  rw [mergeFold, if_pos h]

theorem mergeFold_cons_neg {last cur : Interval} {rest : List Interval}
    (h : ¬cur.start ≤ last.stop + 1) :
    mergeFold last (cur :: rest) = last :: mergeFold cur rest := by
  rw [mergeFold, if_neg h]

theorem mrg_assoc (a b c : Interval) : mrg (mrg a b) c = mrg a (mrg b c) := by
  simp only [mrg, max_assoc]

theorem mrg_right_comm (a b c : Interval) : mrg (mrg a b) c = mrg (mrg a c) b := by
  simp only [mrg, sup_right_comm]

theorem orderedInsert_cons_neg {a b : Interval} (l : List Interval) (h : ¬a.start ≤ b.start) :
    List.orderedInsert startLE a (b :: l) = b :: List.orderedInsert startLE a l := by
  simp only [List.orderedInsert]
  rw [if_neg (show ¬startLE a b from h)]

theorem orderedInsert_eq_cons {a : Interval} : ∀ {U : List Interval},
    (∀ x ∈ U, a.start ≤ x.start) → List.orderedInsert startLE a U = a :: U
  | [], _ => rfl
  | u :: U', h =>
    List.orderedInsert_of_le startLE U' (show startLE a u from h u (List.mem_cons_self _ _))

/-- Absorption: on sorted input the fold may first collapse the tail and then
process the collapsed list, without changing the outcome. -/
theorem mergeFold_absorb : ∀ (T : List Interval) (a b : Interval),
    List.Sorted startLE (b :: T) → a.start ≤ b.start →
    mergeFold a (b :: T) = mergeFold a (mergeFold b T)
  | [], _, _, _, _ => rfl
  | c :: U, a, b, hsort, hab => by
    have hbc : b.start ≤ c.start := (List.sorted_cons.mp hsort).1 c (List.mem_cons_self _ _)
    have hsCU : List.Sorted startLE (c :: U) := hsort.of_cons
    have hbU : ∀ x ∈ U, b.start ≤ x.start :=
      fun x hx => (List.sorted_cons.mp hsort).1 x (List.mem_cons_of_mem _ hx)
    have hsU : List.Sorted startLE U := hsCU.of_cons
    by_cases hc : c.start ≤ b.stop + 1
    · have hsort' : List.Sorted startLE (mrg b c :: U) :=
        List.sorted_cons.mpr ⟨fun x hx => hbU x hx, hsU⟩
      rw [mergeFold_cons_pos hc, ← mergeFold_absorb U a (mrg b c) hsort' hab]
      by_cases hb : b.start ≤ a.stop + 1
      · have hb' : (mrg b c).start ≤ a.stop + 1 := hb
        have hc' : c.start ≤ (mrg a b).stop + 1 :=
          le_trans hc (add_le_add_right (le_max_right _ _) 1)
        rw [mergeFold_cons_pos hb, mergeFold_cons_pos hb', mergeFold_cons_pos hc', mrg_assoc]
      · have hb' : ¬(mrg b c).start ≤ a.stop + 1 := hb
        rw [mergeFold_cons_neg hb, mergeFold_cons_neg hb', mergeFold_cons_pos hc]
    · rw [mergeFold_cons_neg hc]
      by_cases hb : b.start ≤ a.stop + 1
      · rw [mergeFold_cons_pos hb, mergeFold_cons_pos hb]
        exact mergeFold_absorb U (mrg a b) c hsCU (le_trans hab hbc)
      · rw [mergeFold_cons_neg hb, mergeFold_cons_neg hb,
          mergeFold_absorb U b c hsCU hbc]

/-- The fold commutes with inserting one later-starting interval: inserting
`a` into the unprocessed tail or into the already folded tail gives the same
result. -/
theorem mergeFold_insert : ∀ (T : List Interval) (b a : Interval),
    List.Sorted startLE (b :: T) → b.start < a.start →
    mergeFold b (List.orderedInsert startLE a T) =
      mergeRun (List.orderedInsert startLE a (mergeFold b T)) := by
  intro T
  induction T with
  | nil =>
    intro b a _ hba
    show mergeFold b [a] = mergeRun (List.orderedInsert startLE a [b])
    rw [orderedInsert_cons_neg [] (not_le.mpr hba)]
    rfl
  | cons c U ih =>
    intro b a hsort hba
    have hbc : b.start ≤ c.start := (List.sorted_cons.mp hsort).1 c (List.mem_cons_self _ _)
    have hsCU : List.Sorted startLE (c :: U) := hsort.of_cons
    have hbU : ∀ x ∈ U, b.start ≤ x.start :=
      fun x hx => (List.sorted_cons.mp hsort).1 x (List.mem_cons_of_mem _ hx)
    have hcU : ∀ x ∈ U, c.start ≤ x.start :=
      fun x hx => (List.sorted_cons.mp hsCU).1 x hx
    have hsU : List.Sorted startLE U := hsCU.of_cons
    have hmemC : ∀ x ∈ mergeFold c U, c.start ≤ x.start :=
      (mergeFold_canonical U c hsU hcU).2.2
    by_cases hac : a.start ≤ c.start
    · rw [show List.orderedInsert startLE a (c :: U) = a :: c :: U from
        List.orderedInsert_of_le startLE _ (show startLE a c from hac)]
      by_cases hc : c.start ≤ b.stop + 1
      · have hsort' : List.Sorted startLE (mrg b c :: U) :=
          List.sorted_cons.mpr ⟨fun x hx => hbU x hx, hsU⟩
        have hba' : (mrg b c).start < a.start := hba
        rw [mergeFold_cons_pos hc, ← ih (mrg b c) a hsort' hba',
          orderedInsert_eq_cons (fun x hx => le_trans hac (hcU x hx))]
        have ha' : a.start ≤ (mrg b c).stop + 1 :=
          le_trans (le_trans hac hc) (add_le_add_right (le_max_left _ _) 1)
        have ha'' : a.start ≤ b.stop + 1 := le_trans hac hc
        have hc' : c.start ≤ (mrg b a).stop + 1 :=
          le_trans hc (add_le_add_right (le_max_left _ _) 1)
        rw [mergeFold_cons_pos ha'', mergeFold_cons_pos ha', mergeFold_cons_pos hc',
          mrg_right_comm]
      · rw [mergeFold_cons_neg hc,
          orderedInsert_cons_neg (mergeFold c U) (not_le.mpr hba),
          orderedInsert_eq_cons (fun x hx => le_trans hac (hmemC x hx))]
        by_cases ha : a.start ≤ b.stop + 1
        · rw [mergeFold_cons_pos ha,
            show mergeRun (b :: a :: mergeFold c U) =
              mergeFold b (a :: mergeFold c U) from rfl,
            mergeFold_cons_pos ha]
          exact mergeFold_absorb U (mrg b a) c hsCU hbc
        · rw [mergeFold_cons_neg ha,
            show mergeRun (b :: a :: mergeFold c U) =
              mergeFold b (a :: mergeFold c U) from rfl,
            mergeFold_cons_neg ha,
            mergeFold_absorb U a c hsCU hac]
    · rw [orderedInsert_cons_neg U hac]
      by_cases hc : c.start ≤ b.stop + 1
      · have hsort' : List.Sorted startLE (mrg b c :: U) :=
          List.sorted_cons.mpr ⟨fun x hx => hbU x hx, hsU⟩
        have hba' : (mrg b c).start < a.start := hba
        rw [mergeFold_cons_pos hc, mergeFold_cons_pos hc, ih (mrg b c) a hsort' hba']
      · rw [mergeFold_cons_neg hc, mergeFold_cons_neg hc,
          orderedInsert_cons_neg (mergeFold c U) (not_le.mpr hba),
          ih c a hsCU (not_le.mp hac)]
        obtain ⟨e, tl, heq, -⟩ := mergeFold_exists_cons U c
        rw [heq]
        rw [show List.orderedInsert startLE a ((⟨c.start, e⟩ : Interval) :: tl) =
          (⟨c.start, e⟩ : Interval) :: List.orderedInsert startLE a tl from
            orderedInsert_cons_neg tl hac]
        rw [show mergeRun ((⟨c.start, e⟩ : Interval) :: List.orderedInsert startLE a tl) =
          mergeFold (⟨c.start, e⟩ : Interval) (List.orderedInsert startLE a tl) from rfl]
        rw [show mergeRun (b :: (⟨c.start, e⟩ : Interval) :: List.orderedInsert startLE a tl) =
          mergeFold b ((⟨c.start, e⟩ : Interval) :: List.orderedInsert startLE a tl) from rfl]
        rw [mergeFold_cons_neg (show ¬(⟨c.start, e⟩ : Interval).start ≤ b.stop + 1 from hc)]

/-- Inserting an interval into a sorted list and folding is the same as
inserting it into the folded list and folding again. -/
theorem mergeRun_insert : ∀ {S : List Interval} (a : Interval), List.Sorted startLE S →
    mergeRun (List.orderedInsert startLE a S) =
      mergeRun (List.orderedInsert startLE a (mergeRun S))
  | [], _, _ => rfl
  | b :: T, a, hsort => by
    have hbT : ∀ x ∈ T, b.start ≤ x.start := fun x hx => (List.sorted_cons.mp hsort).1 x hx
    have hsT : List.Sorted startLE T := hsort.of_cons
    have hmemB : ∀ x ∈ mergeFold b T, b.start ≤ x.start :=
      (mergeFold_canonical T b hsT hbT).2.2
    by_cases hab : a.start ≤ b.start
    · rw [show List.orderedInsert startLE a (b :: T) = a :: b :: T from
        List.orderedInsert_of_le startLE _ (show startLE a b from hab),
        show mergeRun (b :: T) = mergeFold b T from rfl,
        orderedInsert_eq_cons (fun x hx => le_trans hab (hmemB x hx)),
        show mergeRun (a :: b :: T) = mergeFold a (b :: T) from rfl,
        show mergeRun (a :: mergeFold b T) = mergeFold a (mergeFold b T) from rfl]
      exact mergeFold_absorb T a b hsort hab
    · rw [orderedInsert_cons_neg T hab,
        show mergeRun (b :: List.orderedInsert startLE a T) =
          mergeFold b (List.orderedInsert startLE a T) from rfl,
        show mergeRun (b :: T) = mergeFold b T from rfl]
      exact mergeFold_insert T b a hsort (not_le.mp hab)

theorem sortByStart_cons (a : Interval) (l : List Interval) :
    sortByStart (a :: l) = List.orderedInsert startLE a (sortByStart l) := rfl

/-- The effect of one more input interval on the merged output only depends on
the merged output of the rest. -/
theorem mergeIntervals_cons (a : Interval) (l : List Interval) :
    mergeIntervals (a :: l) = mergeRun (List.orderedInsert startLE a (mergeIntervals l)) := by
  rw [mergeIntervals_eq_run (a :: l), sortByStart_cons,
    mergeRun_insert a (sortByStart_sorted l), ← mergeIntervals_eq_run l]

theorem mergeIntervals_union_aux : ∀ (A B : List Interval),
    mergeIntervals (A ++ mergeIntervals B) = mergeIntervals (A ++ B)
  | [], B => by
    simp only [List.nil_append]
    exact mergeIntervals_idem_aux B
  | a :: A', B => by
    rw [List.cons_append, List.cons_append, mergeIntervals_cons, mergeIntervals_cons,
      mergeIntervals_union_aux A' B]

theorem mergeIntervals_perm_aux {X X' : List Interval} (hv : ∀ i ∈ X, Valid i)
    (hperm : X'.Perm X) : mergeIntervals X' = mergeIntervals X := by
  have hv' : ∀ i ∈ X', Valid i := fun i hi => hv i (hperm.mem_iff.mp hi)
  refine canonical_covers_unique _ _ (mergeIntervals_chain X') (mergeIntervals_chain X)
    (mergeIntervals_valid hv') (mergeIntervals_valid hv) ?_
  intro t
  rw [mergeIntervals_covers X' t, mergeIntervals_covers X t]
  exact covers_perm hperm t

theorem validateBatch_fst {batch : List Interval} {i : Interval} :
    i ∈ (validateBatch batch).1 ↔ i ∈ batch ∧ i.start ≤ i.stop := by
  simp [validateBatch, List.partition_eq_filter_filter, List.mem_filter]

theorem validateBatch_snd {batch : List Interval} {i : Interval} :
    i ∈ (validateBatch batch).2 ↔ i ∈ batch ∧ ¬i.start ≤ i.stop := by
  simp [validateBatch, List.partition_eq_filter_filter, List.mem_filter]

theorem foldl_add_eq_sum (f : Interval → Int) :
    ∀ (l : List Interval) (acc : Int), l.foldl (fun t i => t + f i) acc = acc + (l.map f).sum
  | [], acc => by simp
  | i :: l, acc => by
    rw [List.foldl_cons, foldl_add_eq_sum f l (acc + f i), List.map_cons, List.sum_cons]
    ring

/-! ### The claims -/

/-- C1: `mergeIntervals` sorts its input by `start` ascending and then, for
each subsequent interval `cur`, extends the last result interval to
`max(last.end, cur.end)` when `cur.start ≤ last.end + 1` and appends `cur`
otherwise; in particular `merge [[10,30],[20,40]] = [[10,40]]`,
`merge [[0,5],[7,10]] = [[0,5],[7,10]]` (7 > 5+1), and
`merge [[0,5],[6,10]] = [[0,10]]` (6 ≤ 5+1). -/
theorem c1_merge_algorithm_and_examples :
    (∀ intervals : List Interval, mergeIntervals intervals = specMergeAlgorithm intervals) ∧
    mergeIntervals [⟨10, 30⟩, ⟨20, 40⟩] = [⟨10, 40⟩] ∧
    mergeIntervals [⟨0, 5⟩, ⟨7, 10⟩] = [⟨0, 5⟩, ⟨7, 10⟩] ∧
    mergeIntervals [⟨0, 5⟩, ⟨6, 10⟩] = [⟨0, 10⟩] :=
  ⟨fun intervals => mergeIntervals_eq_run intervals, by decide, by decide, by decide⟩

/-- C2: for every input whose members all satisfy `start ≤ end`, the output of
`mergeIntervals` is in canonical form: sorted ascending by `start`, and every
consecutive pair satisfies `next.start > current.end + 1`. -/
theorem c2_merge_canonical_form (l : List Interval) (hv : ∀ i ∈ l, i.start ≤ i.stop) :
    List.Sorted (fun a b => a.start ≤ b.start) (mergeIntervals l) ∧
    List.Chain' (fun a b => a.stop + 1 < b.start) (mergeIntervals l) :=
  ⟨mergeIntervals_sorted l, mergeIntervals_chain l⟩

/-- Witness for C2 at the concrete batch `[[3,8],[0,1],[4,10]]`. -/
theorem c2_witness :
    (∀ i ∈ [(⟨3, 8⟩ : Interval), ⟨0, 1⟩, ⟨4, 10⟩], i.start ≤ i.stop) ∧
    (List.Sorted (fun a b : Interval => a.start ≤ b.start)
        (mergeIntervals [⟨3, 8⟩, ⟨0, 1⟩, ⟨4, 10⟩]) ∧
      List.Chain' (fun a b : Interval => a.stop + 1 < b.start)
        (mergeIntervals [⟨3, 8⟩, ⟨0, 1⟩, ⟨4, 10⟩])) :=
  ⟨by decide, c2_merge_canonical_form [⟨3, 8⟩, ⟨0, 1⟩, ⟨4, 10⟩] (by decide)⟩

/-- C3: `mergeIntervals` is idempotent on every interval list, valid or not:
its output is already sorted and gap-separated, so sorting it again is the
identity and the fold appends every entry unchanged. -/
theorem c3_merge_idempotent (X : List Interval) :
    mergeIntervals (mergeIntervals X) = mergeIntervals X :=
  mergeIntervals_idem_aux X

/-- C4 counterexample: order independence fails for lists that contain an
interval with `start > end`.  `[[5,3],[5,9]]` and its permutation
`[[5,9],[5,3]]` merge to different results, because the stable sort orders
only by `start` and the invalid entry `[5,3]` blocks `[5,9]` when it comes
first (`5 ≤ 3 + 1` is false) but is absorbed when it comes second. -/
theorem c4_counterexample :
    List.Perm [(⟨5, 9⟩ : Interval), ⟨5, 3⟩] [⟨5, 3⟩, ⟨5, 9⟩] ∧
    mergeIntervals [(⟨5, 3⟩ : Interval), ⟨5, 9⟩] = [⟨5, 3⟩, ⟨5, 9⟩] ∧
    mergeIntervals [(⟨5, 9⟩ : Interval), ⟨5, 3⟩] = [⟨5, 9⟩] ∧
    mergeIntervals [(⟨5, 9⟩ : Interval), ⟨5, 3⟩] ≠ mergeIntervals [⟨5, 3⟩, ⟨5, 9⟩] := by
  refine ⟨?_, ?_, ?_, ?_⟩ <;> decide

/-- C4 amended: for every interval list whose members all satisfy
`start ≤ end`, `mergeIntervals` applied to any permutation yields the same
result list — the tie order of the start-only comparator never matters for
valid intervals. -/
theorem c4_merge_order_independent_valid (X X' : List Interval)
    (hv : ∀ i ∈ X, i.start ≤ i.stop) (hperm : X'.Perm X) :
    mergeIntervals X' = mergeIntervals X :=
  mergeIntervals_perm_aux hv hperm

/-- Witness for C4 at a concrete valid list and a shuffle of it. -/
theorem c4_witness :
    (∀ i ∈ [(⟨10, 30⟩ : Interval), ⟨0, 4⟩, ⟨20, 40⟩], i.start ≤ i.stop) ∧
    List.Perm [(⟨20, 40⟩ : Interval), ⟨10, 30⟩, ⟨0, 4⟩] [⟨10, 30⟩, ⟨0, 4⟩, ⟨20, 40⟩] ∧
    mergeIntervals [(⟨20, 40⟩ : Interval), ⟨10, 30⟩, ⟨0, 4⟩] =
      mergeIntervals [⟨10, 30⟩, ⟨0, 4⟩, ⟨20, 40⟩] :=
  ⟨by decide, by decide,
    c4_merge_order_independent_valid [⟨10, 30⟩, ⟨0, 4⟩, ⟨20, 40⟩]
      [⟨20, 40⟩, ⟨10, 30⟩, ⟨0, 4⟩] (by decide) (by decide)⟩

/-- C5: merge is associative under union, for all interval lists `A` and `B`
(list append models the union of the delivered sets):
`merge (A ++ merge B) = merge (A ++ B)`, so re-merging a previously merged set
together with new or redelivered intervals gives the same canonical result as
merging everything at once. -/
theorem c5_merge_union_assoc (A B : List Interval) :
    mergeIntervals (A ++ mergeIntervals B) = mergeIntervals (A ++ B) :=
  mergeIntervals_union_aux A B

/-- C6 counterexample: the code computes `uniqueSeconds / duration * 100` with
no clamp, so the claimed `clamp(· , 0, 100)` equality fails: for intervals
`[[0,100]]` and duration `60` the code returns `505/3 ≈ 168.3`, while the
clamp of that value is `100`. -/
theorem c6_counterexample :
    calculateProgressPercentage [⟨0, 100⟩] 60 = 505 / 3 ∧
    (100 : ℚ) < 505 / 3 ∧
    min (max ((505 : ℚ) / 3) 0) 100 = 100 ∧
    calculateProgressPercentage [⟨0, 100⟩] 60 ≠
      min (max (calculateProgressPercentage [⟨0, 100⟩] 60) 0) 100 := by
  have h : calculateProgressPercentage [⟨0, 100⟩] 60 = 505 / 3 := by
    norm_num [calculateProgressPercentage, calculateUniqueWatchedTime, List.foldl]
  refine ⟨h, by norm_num, by norm_num, ?_⟩
  rw [h]
  norm_num

/-- C6 amended: `uniqueSeconds` is `Σ (end − start + 1)` and the percentage is
exactly `uniqueSeconds / duration × 100`, with no clamping and no guard on
non-positive durations (the division is performed unconditionally); it is
exactly `100` for `[[0,59]]` at duration `60`, but it can exceed `100`. -/
theorem c6_percentage_formula :
    (∀ intervals : List Interval,
      calculateUniqueWatchedTime intervals = specUniqueSeconds intervals) ∧
    (∀ (intervals : List Interval) (duration : ℚ),
      calculateProgressPercentage intervals duration =
        (specUniqueSeconds intervals : ℚ) / duration * 100) ∧
    calculateProgressPercentage [⟨0, 59⟩] 60 = 100 ∧
    (100 : ℚ) < calculateProgressPercentage [⟨0, 100⟩] 60 := by
  have hunique : ∀ intervals : List Interval,
      calculateUniqueWatchedTime intervals = specUniqueSeconds intervals := by
    intro intervals
    rw [calculateUniqueWatchedTime, specUniqueSeconds,
      foldl_add_eq_sum (fun i => i.stop - i.start + 1) intervals 0, zero_add]
  refine ⟨hunique, ?_, ?_, ?_⟩
  · intro intervals duration
    rw [calculateProgressPercentage, hunique]
  · norm_num [calculateProgressPercentage, calculateUniqueWatchedTime, List.foldl]
  · norm_num [calculateProgressPercentage, calculateUniqueWatchedTime, List.foldl]

/-- C7: intervals with `start > end` are rejected before merging (validation
modelled from the spec, since the server-side batch validation is not among
the provided sources): the rejected entries are exactly the invalid ones, the
rest of the batch is kept and processed, and merging the accepted remainder
never contains or absorbs an interval whose start exceeds its end. -/
theorem c7_invalid_rejected (batch : List Interval) :
    (∀ i ∈ (validateBatch batch).2, i.stop < i.start) ∧
    (∀ i ∈ batch, i.start ≤ i.stop → i ∈ (validateBatch batch).1) ∧
    (∀ i ∈ batch, i.stop < i.start → i ∈ (validateBatch batch).2) ∧
    (∀ j ∈ mergeIntervals (validateBatch batch).1, j.start ≤ j.stop) := by
  refine ⟨?_, ?_, ?_, ?_⟩
  · intro i hi
    exact not_le.mp (validateBatch_snd.mp hi).2
  · intro i hi hvi
    exact validateBatch_fst.mpr ⟨hi, hvi⟩
  · intro i hi hvi
    exact validateBatch_snd.mpr ⟨hi, not_le.mpr hvi⟩
  · exact mergeIntervals_valid (fun i hi => (validateBatch_fst.mp hi).2)

/-- Witness for C7 at the concrete batch `[[0,5],[7,3]]`: the valid interval
is kept, the invalid one rejected. -/
theorem c7_witness :
    ((⟨0, 5⟩ : Interval) ∈ (validateBatch [⟨0, 5⟩, ⟨7, 3⟩]).1) ∧
    ((⟨7, 3⟩ : Interval) ∈ (validateBatch [⟨0, 5⟩, ⟨7, 3⟩]).2) :=
  ⟨(c7_invalid_rejected [⟨0, 5⟩, ⟨7, 3⟩]).2.1 ⟨0, 5⟩ (by decide) (by decide),
    (c7_invalid_rejected [⟨0, 5⟩, ⟨7, 3⟩]).2.2.1 ⟨7, 3⟩ (by decide) (by decide)⟩

/-- C8 counterexample: the resume-seek effect checks only `lastPosition > 0`,
not the upper bound: with the player ready, a stored `lastPosition` of `500`
on a `300`-second video still triggers a seek to `500`, though `500` is not in
`[0, 300)` and the spec's resolver would resume from `0`. -/
theorem c8_counterexample :
    resumeSeekTarget true true 500 = some 500 ∧
    ¬((500 : ℚ) < 300) ∧
    specResumeTarget 500 300 = 0 ∧
    resumeSeekTarget true true 500 ≠ some (specResumeTarget 500 300) := by
  have h1 : resumeSeekTarget true true 500 = some 500 := by
    simp only [resumeSeekTarget]
    rw [if_pos ⟨trivial, trivial, by norm_num⟩]
  have h2 : specResumeTarget 500 300 = 0 := by
    simp only [specResumeTarget]
    rw [if_neg]
    rintro ⟨-, hlt⟩
    norm_num at hlt
  refine ⟨h1, by norm_num, h2, ?_⟩
  rw [h1, h2]
  simp only [ne_eq, Option.some.injEq]
  norm_num

/-- C8 amended: with the player present and ready, the code seeks to exactly
`lastPosition` whenever `lastPosition > 0` — with no upper-bound check against
the duration — and issues no seek for `lastPosition ≤ 0` (playback then starts
at `0`).  For `0 < lastPosition < duration` this agrees with the spec's
resolver, e.g. a stored position `42` on a `300`-second video seeks to `42`. -/
theorem c8_resume_seek (lastPosition duration : ℚ) :
    (0 < lastPosition → resumeSeekTarget true true lastPosition = some lastPosition) ∧
    (lastPosition ≤ 0 → resumeSeekTarget true true lastPosition = none) ∧
    (0 < lastPosition → lastPosition < duration →
      resumeSeekTarget true true lastPosition = some (specResumeTarget lastPosition duration)) := by
  refine ⟨fun h => ?_, fun h => ?_, fun h1 h2 => ?_⟩
  · simp only [resumeSeekTarget]
    rw [if_pos ⟨trivial, trivial, h⟩]
  · simp only [resumeSeekTarget]
    rw [if_neg]
    rintro ⟨-, -, hpos⟩
    exact absurd h (not_le.mpr hpos)
  · simp only [resumeSeekTarget, specResumeTarget]
    rw [if_pos ⟨trivial, trivial, h1⟩, if_pos ⟨le_of_lt h1, h2⟩]

/-- Witness for C8: position 42 on a 300-second video seeks to 42, agreeing
with the spec's resolver. -/
theorem c8_witness :
    (0 : ℚ) < 42 ∧ (42 : ℚ) < 300 ∧
    resumeSeekTarget true true 42 = some (specResumeTarget 42 300) :=
  ⟨by norm_num, by norm_num, (c8_resume_seek 42 300).2.2 (by norm_num) (by norm_num)⟩

/-- C9: every progress operation attempted while unauthenticated is a no-op:
it returns `null`, leaves the provider state untouched, and performs no HTTP
request (and, the embedding being total through the early return, it cannot
throw). -/
theorem c9_unauthenticated_noop (resp : ApiResponse) (s : VideoCtxState)
    (data : List Interval × ℚ) :
    getVideoProgress false resp s = ⟨none, s, 0⟩ ∧
    updateProgress false data resp s = ⟨none, s, 0⟩ ∧
    resetProgress false resp s = ⟨none, s, 0⟩ :=
  ⟨rfl, rfl, rfl⟩

/-- C10: each authenticated progress operation issues exactly one request; any
failed request or response without a success flag and data yields `null` with
the provider state unchanged (the `catch` swallows the transport error, so
nothing is thrown and no retry happens); only a successful response carrying
data replaces the stored progress with the server-returned state. -/
theorem c10_authenticated_error_paths (resp : ApiResponse) (s : VideoCtxState)
    (data : List Interval × ℚ) :
    ((getVideoProgress true resp s).requests = 1 ∧
      (updateProgress true data resp s).requests = 1 ∧
      (resetProgress true resp s).requests = 1) ∧
    ((∀ d : WatchedState, resp ≠ ApiResponse.reply true (some d)) →
      getVideoProgress true resp s = ⟨none, s, 1⟩ ∧
      updateProgress true data resp s = ⟨none, s, 1⟩ ∧
      resetProgress true resp s = ⟨none, s, 1⟩) ∧
    (∀ d : WatchedState, resp = ApiResponse.reply true (some d) →
      getVideoProgress true resp s = ⟨some d, ⟨some d, none⟩, 1⟩ ∧
      updateProgress true data resp s = ⟨some d, ⟨some d, none⟩, 1⟩ ∧
      resetProgress true resp s = ⟨some d, ⟨some d, none⟩, 1⟩) := by
  refine ⟨?_, ?_, ?_⟩
  · match resp with
    | ApiResponse.failure => exact ⟨rfl, rfl, rfl⟩
    | ApiResponse.reply true (some d) => exact ⟨rfl, rfl, rfl⟩
    | ApiResponse.reply true none => exact ⟨rfl, rfl, rfl⟩
    | ApiResponse.reply false (some d) => exact ⟨rfl, rfl, rfl⟩
    | ApiResponse.reply false none => exact ⟨rfl, rfl, rfl⟩
  · intro hne
    match resp with
    | ApiResponse.failure => exact ⟨rfl, rfl, rfl⟩
    | ApiResponse.reply true (some d) => exact absurd rfl (hne d)
    | ApiResponse.reply true none => exact ⟨rfl, rfl, rfl⟩
    | ApiResponse.reply false (some d) => exact ⟨rfl, rfl, rfl⟩
    | ApiResponse.reply false none => exact ⟨rfl, rfl, rfl⟩
  · intro d hd
    subst hd
    exact ⟨rfl, rfl, rfl⟩

/-- Witness for C10: a transport failure leaves a populated state alone and
returns `null`; a successful response replaces the progress state. -/
theorem c10_witness :
    getVideoProgress true ApiResponse.failure ⟨none, some "boom"⟩ =
      ⟨none, ⟨none, some "boom"⟩, 1⟩ ∧
    getVideoProgress true (ApiResponse.reply true (some ⟨[⟨0, 3⟩], 4, 40⟩)) ⟨none, none⟩ =
      ⟨some ⟨[⟨0, 3⟩], 4, 40⟩, ⟨some ⟨[⟨0, 3⟩], 4, 40⟩, none⟩, 1⟩ :=
  ⟨((c10_authenticated_error_paths ApiResponse.failure ⟨none, some "boom"⟩ ([], 0)).2.1
      (fun d => by simp)).1,
    ((c10_authenticated_error_paths (ApiResponse.reply true (some ⟨[⟨0, 3⟩], 4, 40⟩))
      ⟨none, none⟩ ([], 0)).2.2 ⟨[⟨0, 3⟩], 4, 40⟩ rfl).1⟩

end VideoProgress
